import Mathlib

/-!
Verification of the Mandelbrot zoom renderer (`src/main.cu`).

The program's `double` arithmetic is embedded as exact rational arithmetic
(`ℚ`).  Every concrete input appearing in the claims (small integers, powers
of two) is exactly representable as a binary double and every operation the
claims exercise on them is exact in IEEE double precision, so the rational
model agrees with the program there; structural claims (loop counting,
branch selection, index arithmetic) do not depend on rounding at all.

The divergence guard in the source is `sqrt(z.real*z.real + z.imag*z.imag)
< 2.0`; over exact arithmetic this is equivalent to the squared magnitude
being `< 4` (`sqrt` is strictly monotone), which is how the guard is
embedded; the equivalence is proved below (`sqrt_guard_iff`).
-/

namespace Mandelbrot

/-- `struct comp` of `src/main.cu`: a complex number as two doubles,
embedded with exact rational components. -/
structure comp where
  real : ℚ
  imag : ℚ
deriving DecidableEq, Repr

/-- `const int max_iter = 2048`. -/
def max_iter : ℕ := 2048

/-- `const int img_width = 1920`. -/
def img_width : ℕ := 1920

/-- `const int img_height = 1080`. -/
def img_height : ℕ := 1080

/-- `const struct comp center` (the decimal literals, read exactly). -/
def center : comp := ⟨-77568377 / 100000000, 13646737 / 100000000⟩

/-- Squared magnitude `z.real * z.real + z.imag * z.imag` of the loop guard
in `iterate`. -/
def mag2 (z : comp) : ℚ := z.real * z.real + z.imag * z.imag

/-- One pass of the loop body of `iterate`:
`real = z.real*z.real - z.imag*z.imag + c.real;
 imag = z.real*z.imag*2.0 + c.imag`. -/
def znext (z c : comp) : comp :=
  ⟨z.real * z.real - z.imag * z.imag + c.real, z.real * z.imag * 2 + c.imag⟩

/-- The `while (i < max_iter && sqrt(...) < 2.0)` loop of `iterate`, with an
explicit fuel argument so the recursion is structural.  The loop's own bound
`i < m` is part of the guard exactly as in the source; the fuel only has to
be at least `m - i` for the model to coincide with the C loop (proved in
`iterLoop_fuel_stable`). -/
def iterLoop (m : ℕ) (c : comp) : comp → ℕ → ℕ → ℕ
  | _, i, 0 => i
  | z, i, fuel + 1 =>
      if i < m ∧ mag2 z < 4 then iterLoop m c (znext z c) (i + 1) fuel else i

/-- `iterate(struct comp c, int *iterations)` of `src/main.cu`, returning the
final value of `i` and taking the iteration cap as a parameter (the source
reads the global constant `max_iter`).  Fuel `m` suffices: the guard keeps
`i < m` and `i` increases by one per pass. -/
def iterate (c : comp) (m : ℕ) : ℕ := iterLoop m c c 0 m

/-- The source guard `sqrt(z.real*z.real + z.imag*z.imag) < 2.0` is, over
exact arithmetic, the squared-magnitude test `mag2 z < 4` used in the
embedding. -/
theorem sqrt_guard_iff (z : comp) : Real.sqrt (mag2 z : ℝ) < 2 ↔ mag2 z < 4 := by
  rw [Real.sqrt_lt' (by norm_num : (0 : ℝ) < 2)]
  norm_num
  exact_mod_cast Iff.rfl

theorem iterLoop_le (m : ℕ) (c : comp) :
    ∀ fuel z i, i ≤ m → iterLoop m c z i fuel ≤ m := by
  intro fuel
  induction fuel with
  | zero => intro z i hi; simpa [iterLoop] using hi
  | succ f ih =>
      intro z i hi
      rw [iterLoop]
      split
      · exact ih _ (i + 1) (by omega)
      · simpa using hi

theorem iterLoop_of_ge (m : ℕ) (c : comp) :
    ∀ fuel z i, m ≤ i → iterLoop m c z i fuel = i := by
  intro fuel
  induction fuel with
  | zero => intro z i _; rfl
  | succ f _ =>
      intro z i hi
      rw [iterLoop]
      split
      · omega
      · rfl

theorem iterLoop_fuel_stable (m : ℕ) (c : comp) :
    ∀ f₁ f₂ z i, m - i ≤ f₁ → m - i ≤ f₂ →
      iterLoop m c z i f₁ = iterLoop m c z i f₂ := by
  intro f₁
  induction f₁ with
  | zero =>
      intro f₂ z i h1 _
      rw [iterLoop_of_ge m c 0 z i (by omega), iterLoop_of_ge m c f₂ z i (by omega)]
  | succ f ih =>
      intro f₂ z i h1 h2
      by_cases him : m ≤ i
      · rw [iterLoop_of_ge m c _ z i him, iterLoop_of_ge m c _ z i him]
      · obtain ⟨f₂', rfl⟩ : ∃ k, f₂ = k + 1 := ⟨f₂ - 1, by omega⟩
        rw [iterLoop, iterLoop]
        split
        · exact ih f₂' (znext z c) (i + 1) (by omega) (by omega)
        · rfl

/-- **C1.** For every complex input `c` and every positive `max_iter`, the
IterationEngine returns a count in the closed interval `[0, max_iter]`: it
starts at `0`, increments once per pass, and the guard `i < max_iter` keeps
it from exceeding `max_iter`. -/
theorem iterate_mem_range (c : comp) (m : ℕ) (hm : 0 < m) :
    0 ≤ iterate c m ∧ iterate c m ≤ m :=
  ⟨Nat.zero_le _, iterLoop_le m c m c 0 (Nat.zero_le m)⟩

theorem iterate_mem_range_witness :
    0 < 2048 ∧ (0 ≤ iterate ⟨1, 1⟩ 2048 ∧ iterate ⟨1, 1⟩ 2048 ≤ 2048) :=
  ⟨by decide, iterate_mem_range ⟨1, 1⟩ 2048 (by decide)⟩

/-- **C2.** Magnitude exactly `2.0` counts as diverged: for `c = (2,0)` the
loop body never runs and the result is `0`; for `c = (1,0)` the loop runs
exactly once (`|z| = 1 < 2` produces `z = (2,0)`, then the check `2.0 < 2.0`
fails) and the result is exactly `1`. -/
theorem iterate_boundary (m : ℕ) (hm : 0 < m) :
    iterate ⟨2, 0⟩ m = 0 ∧ iterate ⟨1, 0⟩ m = 1 := by
  constructor
  · obtain ⟨f, rfl⟩ : ∃ k, m = k + 1 := ⟨m - 1, by omega⟩
    rw [iterate, iterLoop, if_neg]
    rintro ⟨-, hmag⟩
    norm_num [mag2] at hmag
  · obtain ⟨f, rfl⟩ : ∃ k, m = k + 1 := ⟨m - 1, by omega⟩
    rw [iterate, iterLoop, if_pos ⟨by omega, by norm_num [mag2]⟩]
    have hz : znext ⟨1, 0⟩ ⟨1, 0⟩ = ⟨2, 0⟩ := by
      simp [znext]
      norm_num
    rw [hz]
    cases f with
    | zero => rfl
    | succ f' =>
        rw [iterLoop, if_neg]
        rintro ⟨-, hmag⟩
        norm_num [mag2] at hmag

theorem iterate_boundary_witness :
    0 < 2048 ∧ (iterate ⟨2, 0⟩ 2048 = 0 ∧ iterate ⟨1, 0⟩ 2048 = 1) :=
  ⟨by decide, iterate_boundary 2048 (by decide)⟩

theorem iterLoop_zero (m : ℕ) :
    ∀ fuel i, i + fuel ≤ m → iterLoop m ⟨0, 0⟩ ⟨0, 0⟩ i fuel = i + fuel := by
  intro fuel
  induction fuel with
  | zero => intro i _; rfl
  | succ f ih =>
      intro i hif
      have hz : znext ⟨0, 0⟩ ⟨0, 0⟩ = ⟨0, 0⟩ := by simp [znext]
      rw [iterLoop, if_pos ⟨by omega, by norm_num [mag2]⟩, hz, ih (i + 1) (by omega)]
      omega

/-- **C3.** For `c = (0,0)` the orbit stays at the origin, the loop runs to
the step cap, and the result equals `max_iter`. -/
theorem iterate_zero_eq_max (m : ℕ) : iterate ⟨0, 0⟩ m = m := by
  simpa using iterLoop_zero m m 0 (by omega)

/-- **C9.** The numeric pipeline is total: the loop of `iterate` needs no
more than `max_iter` passes, so its result is independent of any larger
step budget (the loop counter strictly increases toward the bound and the
guard then fails); `map_pixel` and `hsv_to_rgb` are loop-free total
functions in this development. -/
theorem iterate_terminates (c : comp) (m fuel : ℕ) (h : m ≤ fuel) :
    iterLoop m c c 0 fuel = iterate c m :=
  iterLoop_fuel_stable m c fuel m c 0 (by omega) (by omega)

theorem iterate_terminates_witness :
    3 ≤ 10 ∧ iterLoop 3 ⟨1, 0⟩ ⟨1, 0⟩ 0 10 = iterate ⟨1, 0⟩ 3 :=
  ⟨by decide, iterate_terminates ⟨1, 0⟩ 3 10 (by decide)⟩

/-- `map_pixel(int px, int py, double zoom, struct comp center, ...)` of
`src/main.cu`, translated line by line (`span_real`, `span_imag`,
`real_nozoom`, `imag_nozoom` are the source's locals). -/
def map_pixel (px py : ℤ) (zoom : ℚ) (ctr : comp) : comp :=
  let span_real : ℚ := 4 / zoom
  let span_imag : ℚ := 2 / zoom
  let real_nozoom : ℚ := span_real / (img_width : ℚ) * px - span_real / 2 + ctr.real
  let imag_nozoom : ℚ := span_imag / (img_height : ℚ) * py - span_imag / 2 + ctr.imag
  ⟨real_nozoom, imag_nozoom⟩

/-- Modelled from the spec: the affine image the CoordinateMapper contract
promises, `(span_real/width·px − span_real/2 + center.real,
span_imag/height·py − span_imag/2 + center.imag)` with `span_real = 4.0/zoom`
and `span_imag = 2.0/zoom`, written out as a single formula. -/
def map_pixel_spec (px py : ℤ) (zoom : ℚ) (ctr : comp) : comp :=
  ⟨4 / zoom / (img_width : ℚ) * px - 4 / zoom / 2 + ctr.real,
   2 / zoom / (img_height : ℚ) * py - 2 / zoom / 2 + ctr.imag⟩

/-- **C4.** For every in-range pixel `(px, py)` and every `zoom > 0`, the
CoordinateMapper returns exactly the affine image of the spec's formula. -/
theorem map_pixel_eq_spec (px py : ℤ) (zoom : ℚ) (ctr : comp)
    (hpx0 : 0 ≤ px) (hpx1 : px < (img_width : ℤ))
    (hpy0 : 0 ≤ py) (hpy1 : py < (img_height : ℤ)) (hz : 0 < zoom) :
    map_pixel px py zoom ctr = map_pixel_spec px py zoom ctr := rfl

theorem map_pixel_eq_spec_witness :
    (0 ≤ (7 : ℤ) ∧ (7 : ℤ) < (img_width : ℤ) ∧ 0 ≤ (5 : ℤ) ∧
      (5 : ℤ) < (img_height : ℤ) ∧ (0 : ℚ) < 2) ∧
    map_pixel 7 5 2 center = map_pixel_spec 7 5 2 center :=
  ⟨by decide,
   map_pixel_eq_spec 7 5 2 center (by decide) (by decide) (by decide) (by decide)
     (by decide)⟩

/-- Truncation toward zero, the C conversion from `double` to `int`. -/
def trunc (q : ℚ) : ℤ := if 0 ≤ q then ⌊q⌋ else ⌈q⌉

/-- C's `fmod(x, y)`: `x - y * trunc(x / y)`. -/
def cfmod (x y : ℚ) : ℚ := x - y * (trunc (x / y) : ℚ)

/-- Local `c = S * V` of `hsv_to_rgb`, with `S = s / 100.0` and
`V = v / 100.0`. -/
def hsvC (s v : ℤ) : ℚ := ((s : ℚ) / 100) * ((v : ℚ) / 100)

/-- Local `x = c * (1.0 - fabs(fmod(h / 60.0, 2.0) - 1.0))` of
`hsv_to_rgb`. -/
def hsvX (h s v : ℤ) : ℚ := hsvC s v * (1 - |cfmod ((h : ℚ) / 60) 2 - 1|)

/-- Local `m = V - c` of `hsv_to_rgb`. -/
def hsvM (s v : ℤ) : ℚ := (v : ℚ) / 100 - hsvC s v

/-- The cascade of `if`/`else if` assignments to `(R, G, B)` in
`hsv_to_rgb`, before the `m` offset and the 255 scaling. -/
def sector (h s v : ℤ) : ℚ × ℚ × ℚ :=
  if 0 ≤ h ∧ h < 60 then (hsvC s v, hsvX h s v, 0)
  else if 60 ≤ h ∧ h < 180 then (hsvX h s v, hsvC s v, hsvX h s v)
  else if 180 ≤ h ∧ h < 240 then (0, hsvX h s v, hsvC s v)
  else if 240 ≤ h ∧ h < 300 then (hsvX h s v, 0, hsvC s v)
  else (hsvC s v, 0, hsvX h s v)

/-- `hsv_to_rgb(int h, int s, int v, int *r, int *g, int *b)` of
`src/main.cu`: each output is `(R + m) * 255.0` stored into an `int`
(truncation toward zero). -/
def hsv_to_rgb (h s v : ℤ) : ℤ × ℤ × ℤ :=
  (trunc (((sector h s v).1 + hsvM s v) * 255),
   trunc (((sector h s v).2.1 + hsvM s v) * 255),
   trunc (((sector h s v).2.2 + hsvM s v) * 255))

/-- **C5.** For every hue `60 ≤ h < 180` (saturation 100) the conversion
takes the single merged branch assigning the pre-offset channels
`(X, C, X)`, so the red and blue output bytes coincide on the whole range. -/
theorem hsv_merged_branch (h v : ℤ) (h1 : 60 ≤ h) (h2 : h < 180) :
    hsv_to_rgb h 100 v =
      (trunc ((hsvX h 100 v + hsvM 100 v) * 255),
       trunc ((hsvC 100 v + hsvM 100 v) * 255),
       trunc ((hsvX h 100 v + hsvM 100 v) * 255)) ∧
    (hsv_to_rgb h 100 v).1 = (hsv_to_rgb h 100 v).2.2 := by
  have hs : sector h 100 v = (hsvX h 100 v, hsvC 100 v, hsvX h 100 v) := by
    rw [sector, if_neg (by omega), if_pos ⟨h1, h2⟩]
  constructor
  · rw [hsv_to_rgb, hs]
  · rw [hsv_to_rgb, hs]

theorem hsv_merged_branch_witness :
    ((60 : ℤ) ≤ 90 ∧ (90 : ℤ) < 180) ∧
    (hsv_to_rgb 90 100 50 =
      (trunc ((hsvX 90 100 50 + hsvM 100 50) * 255),
       trunc ((hsvC 100 50 + hsvM 100 50) * 255),
       trunc ((hsvX 90 100 50 + hsvM 100 50) * 255)) ∧
     (hsv_to_rgb 90 100 50).1 = (hsv_to_rgb 90 100 50).2.2) :=
  ⟨by decide, hsv_merged_branch 90 50 (by decide) (by decide)⟩

theorem trunc_of_nonneg (q : ℚ) (h : 0 ≤ q) : trunc q = ⌊q⌋ := if_pos h

theorem trunc_bounds (q : ℚ) (n : ℤ) (h0 : 0 ≤ q) (h1 : q ≤ (n : ℚ)) :
    0 ≤ trunc q ∧ trunc q ≤ n := by
  rw [trunc_of_nonneg q h0]
  refine ⟨Int.floor_nonneg.mpr h0, ?_⟩
  have hfl := Int.floor_le_floor h1
  simpa using hfl

theorem cfmod_two_bounds (x : ℚ) (hx : 0 ≤ x) : 0 ≤ cfmod x 2 ∧ cfmod x 2 < 2 := by
  have hhalf : (0 : ℚ) ≤ x / 2 := by positivity
  have hfr0 : 0 ≤ Int.fract (x / 2) := Int.fract_nonneg _
  have hfr1 : Int.fract (x / 2) < 1 := Int.fract_lt_one _
  have key : cfmod x 2 = 2 * Int.fract (x / 2) := by
    rw [cfmod, trunc_of_nonneg _ hhalf, Int.fract]
    ring
  constructor
  · rw [key]; linarith
  · rw [key]; linarith

theorem hsvC_bounds (s v : ℤ) (hs0 : 0 ≤ s) (hs1 : s ≤ 100) (hv0 : 0 ≤ v)
    (hv1 : v ≤ 100) : 0 ≤ hsvC s v ∧ hsvC s v ≤ (v : ℚ) / 100 := by
  have h1 : (0 : ℚ) ≤ (s : ℚ) / 100 := by positivity
  have h2 : (s : ℚ) / 100 ≤ 1 := by
    rw [div_le_one (by norm_num)]; exact_mod_cast hs1
  have h3 : (0 : ℚ) ≤ (v : ℚ) / 100 := by positivity
  constructor
  · exact mul_nonneg h1 h3
  · calc ((s : ℚ) / 100) * ((v : ℚ) / 100) ≤ 1 * ((v : ℚ) / 100) :=
        mul_le_mul_of_nonneg_right h2 h3
    _ = (v : ℚ) / 100 := one_mul _

theorem hsvX_bounds (h s v : ℤ) (hh : 0 ≤ h) (hs0 : 0 ≤ s) (hs1 : s ≤ 100)
    (hv0 : 0 ≤ v) (hv1 : v ≤ 100) : 0 ≤ hsvX h s v ∧ hsvX h s v ≤ hsvC s v := by
  obtain ⟨hC0, _⟩ := hsvC_bounds s v hs0 hs1 hv0 hv1
  have hha : (0 : ℚ) ≤ (h : ℚ) / 60 := by positivity
  obtain ⟨hm0, hm1⟩ := cfmod_two_bounds ((h : ℚ) / 60) hha
  have habs : |cfmod ((h : ℚ) / 60) 2 - 1| ≤ 1 := by
    rw [abs_le]; constructor <;> linarith
  have hfac0 : (0 : ℚ) ≤ 1 - |cfmod ((h : ℚ) / 60) 2 - 1| := by linarith
  have hfac1 : 1 - |cfmod ((h : ℚ) / 60) 2 - 1| ≤ 1 := by
    have := abs_nonneg (cfmod ((h : ℚ) / 60) 2 - 1)
    linarith
  constructor
  · exact mul_nonneg hC0 hfac0
  · calc hsvC s v * (1 - |cfmod ((h : ℚ) / 60) 2 - 1|) ≤ hsvC s v * 1 :=
        mul_le_mul_of_nonneg_left hfac1 hC0
    _ = hsvC s v := mul_one _

theorem hsvM_bounds (s v : ℤ) (hs0 : 0 ≤ s) (hs1 : s ≤ 100) (hv0 : 0 ≤ v)
    (hv1 : v ≤ 100) : 0 ≤ hsvM s v ∧ hsvM s v + hsvC s v ≤ 1 := by
  obtain ⟨hC0, hC1⟩ := hsvC_bounds s v hs0 hs1 hv0 hv1
  have hV1 : (v : ℚ) / 100 ≤ 1 := by
    rw [div_le_one (by norm_num)]; exact_mod_cast hv1
  constructor
  · rw [hsvM]; linarith
  · rw [hsvM]; linarith

theorem channel_bounds (s v : ℤ) (R : ℚ) (hs0 : 0 ≤ s) (hs1 : s ≤ 100)
    (hv0 : 0 ≤ v) (hv1 : v ≤ 100) (hR0 : 0 ≤ R) (hR1 : R ≤ hsvC s v) :
    0 ≤ trunc ((R + hsvM s v) * 255) ∧ trunc ((R + hsvM s v) * 255) ≤ 255 := by
  obtain ⟨hM0, hMC⟩ := hsvM_bounds s v hs0 hs1 hv0 hv1
  have h0 : (0 : ℚ) ≤ (R + hsvM s v) * 255 := by
    apply mul_nonneg _ (by norm_num)
    linarith
  have h1 : (R + hsvM s v) * 255 ≤ ((255 : ℤ) : ℚ) := by
    have : R + hsvM s v ≤ 1 := by linarith
    push_cast
    nlinarith
  exact trunc_bounds _ 255 h0 h1

theorem hsv_to_rgb_bounds (h s v : ℤ) (hh : 0 ≤ h) (hs0 : 0 ≤ s)
    (hs1 : s ≤ 100) (hv0 : 0 ≤ v) (hv1 : v ≤ 100) :
    (0 ≤ (hsv_to_rgb h s v).1 ∧ (hsv_to_rgb h s v).1 ≤ 255) ∧
    (0 ≤ (hsv_to_rgb h s v).2.1 ∧ (hsv_to_rgb h s v).2.1 ≤ 255) ∧
    (0 ≤ (hsv_to_rgb h s v).2.2 ∧ (hsv_to_rgb h s v).2.2 ≤ 255) := by
  obtain ⟨hC0, _⟩ := hsvC_bounds s v hs0 hs1 hv0 hv1
  obtain ⟨hX0, hX1⟩ := hsvX_bounds h s v hh hs0 hs1 hv0 hv1
  have hcc := channel_bounds s v (hsvC s v) hs0 hs1 hv0 hv1 hC0 le_rfl
  have hcx := channel_bounds s v (hsvX h s v) hs0 hs1 hv0 hv1 hX0 hX1
  have hc0 := channel_bounds s v 0 hs0 hs1 hv0 hv1 le_rfl hC0
  rw [hsv_to_rgb, sector]
  split_ifs
  · exact ⟨by simpa using hcc, by simpa using hcx, by simpa using hc0⟩
  · exact ⟨by simpa using hcx, by simpa using hcc, by simpa using hcx⟩
  · exact ⟨by simpa using hc0, by simpa using hcx, by simpa using hcc⟩
  · exact ⟨by simpa using hcx, by simpa using hc0, by simpa using hcc⟩
  · exact ⟨by simpa using hcc, by simpa using hc0, by simpa using hcx⟩

/-- Hue argument `iterations % 360` passed by `plot_pixel`. -/
def hue (count : ℕ) : ℤ := (count : ℤ) % 360

/-- Value argument `(max_iter - iterations) / (double)max_iter * 100` passed
by `plot_pixel`: integer subtraction, real division and scaling, then
truncation toward zero by the `int v` parameter of `hsv_to_rgb`. -/
def value_of (count m : ℕ) : ℤ :=
  trunc (((m : ℤ) - (count : ℤ) : ℤ) / (m : ℚ) * 100)

/-- The ColorMapper of `plot_pixel`: `hsv_to_rgb(iterations % 360, 100,
(max_iter - iterations) / (double)max_iter * 100, &r, &g, &b)`. -/
def colorize (count m : ℕ) : ℤ × ℤ × ℤ :=
  hsv_to_rgb (hue count) 100 (value_of count m)

theorem value_of_bounds (count m : ℕ) (h1 : count ≤ m) (h2 : 0 < m) :
    0 ≤ value_of count m ∧ value_of count m ≤ 100 := by
  have hm : (0 : ℚ) < (m : ℚ) := by exact_mod_cast h2
  have hnum : (0 : ℚ) ≤ ((m : ℤ) - (count : ℤ) : ℤ) := by
    push_cast
    have : (count : ℚ) ≤ (m : ℚ) := by exact_mod_cast h1
    linarith
  have hq0 : (0 : ℚ) ≤ (((m : ℤ) - (count : ℤ) : ℤ) : ℚ) / (m : ℚ) * 100 := by
    apply mul_nonneg _ (by norm_num)
    exact div_nonneg hnum hm.le
  have hq1 : (((m : ℤ) - (count : ℤ) : ℤ) : ℚ) / (m : ℚ) * 100 ≤ ((100 : ℤ) : ℚ) := by
    have hle : (((m : ℤ) - (count : ℤ) : ℤ) : ℚ) / (m : ℚ) ≤ 1 := by
      rw [div_le_one hm]
      push_cast
      linarith
    push_cast at hle ⊢
    linarith
  exact trunc_bounds _ 100 hq0 hq1

/-- **C6.** For every `count ∈ [0, max_iter]` with positive `max_iter`, the
ColorMapper produces `r`, `g`, `b` each in `[0, 255]`: in every branch the
pre-offset channel is at most `C`, so channel + `m` is at most `V ≤ 1`. -/
theorem colorize_bounds (count m : ℕ) (h1 : count ≤ m) (h2 : 0 < m) :
    (0 ≤ (colorize count m).1 ∧ (colorize count m).1 ≤ 255) ∧
    (0 ≤ (colorize count m).2.1 ∧ (colorize count m).2.1 ≤ 255) ∧
    (0 ≤ (colorize count m).2.2 ∧ (colorize count m).2.2 ≤ 255) := by
  obtain ⟨hv0, hv1⟩ := value_of_bounds count m h1 h2
  have hh : 0 ≤ hue count := Int.emod_nonneg _ (by norm_num)
  exact hsv_to_rgb_bounds (hue count) 100 (value_of count m) hh (by norm_num)
    (by norm_num) hv0 hv1

theorem colorize_bounds_witness :
    (5 ≤ 7 ∧ 0 < 7) ∧
    ((0 ≤ (colorize 5 7).1 ∧ (colorize 5 7).1 ≤ 255) ∧
     (0 ≤ (colorize 5 7).2.1 ∧ (colorize 5 7).2.1 ≤ 255) ∧
     (0 ≤ (colorize 5 7).2.2 ∧ (colorize 5 7).2.2 ≤ 255)) :=
  ⟨by decide, colorize_bounds 5 7 (by decide) (by decide)⟩

/-- **C10.** The brightness value handed to `hsv_to_rgb` is truncated toward
zero to an integer, so for every `count ∈ [0, max_iter]` it is one of the
101 integers `0..100`, and two counts with equal hue `count mod 360` and
equal truncated value yield identical RGB bytes. -/
theorem value_truncated (count m : ℕ) (h1 : count ≤ m) (h2 : 0 < m) :
    (0 ≤ value_of count m ∧ value_of count m ≤ 100) ∧
    ∀ count₂ m₂ : ℕ, hue count = hue count₂ →
      value_of count m = value_of count₂ m₂ →
      colorize count m = colorize count₂ m₂ := by
  refine ⟨value_of_bounds count m h1 h2, ?_⟩
  intro count₂ m₂ hh hv
  rw [colorize, colorize, hh, hv]

theorem value_truncated_witness :
    (5 ≤ 7 ∧ 0 < 7) ∧
    ((0 ≤ value_of 5 7 ∧ value_of 5 7 ≤ 100) ∧
      colorize 5 7 = colorize 365 510) :=
  ⟨by decide,
   ⟨(value_truncated 5 7 (by decide) (by decide)).1,
    (value_truncated 5 7 (by decide) (by decide)).2 365 510 (by decide)
      (by norm_num [value_of, trunc])⟩⟩

/-- `px = i % img_width` of `plot_pixel`. -/
def pixel_px (i : ℕ) : ℕ := i % img_width

/-- `py = i / img_width` of `plot_pixel`. -/
def pixel_py (i : ℕ) : ℕ := i / img_width

/-- `size_t byte = 3 * (py * img_width + px)` of `plot_pixel`. -/
def byte_offset (i : ℕ) : ℕ := 3 * (pixel_py i * img_width + pixel_px i)

/-- The three buffer cells `buf[byte + 0]`, `buf[byte + 1]`, `buf[byte + 2]`
written by thread `i` of `plot_pixel`. -/
def byte_range (i : ℕ) : Finset ℕ := Finset.Ico (byte_offset i) (byte_offset i + 3)

/-- `int threads_per_block = 256` of `plot_mandelbrot`. -/
def threads_per_block : ℕ := 256

/-- `int block_count = img_width * img_height / threads_per_block` of
`plot_mandelbrot`. -/
def block_count : ℕ := img_width * img_height / threads_per_block

/-- The allocation `img_width * img_height * 3` of `main`. -/
def buffer_size : ℕ := img_width * img_height * 3

/-- **C7.** One frame dispatch writes every byte of the buffer exactly once:
the write offset of thread `i` is `3·i`, distinct threads touch disjoint
byte triples, the launched index range covers exactly the pixel domain for
the 1920×1080 configuration, no launched write is out of bounds, and every
buffer byte belongs to exactly one in-range thread. -/
theorem dispatch_covers :
    (∀ i, byte_offset i = 3 * i) ∧
    (∀ i j, i ≠ j → Disjoint (byte_range i) (byte_range j)) ∧
    block_count * threads_per_block = img_width * img_height ∧
    (∀ i, i < block_count * threads_per_block → byte_offset i + 3 ≤ buffer_size) ∧
    (∀ b, b < buffer_size → ∃! i, i < img_width * img_height ∧ b ∈ byte_range i) := by
  have hoff : ∀ i, byte_offset i = 3 * i := by
    intro i
    rw [byte_offset, pixel_px, pixel_py, img_width]
    omega
  refine ⟨hoff, ?_, by decide, ?_, ?_⟩
  · intro i j hij
    rw [Finset.disjoint_left]
    intro b hb hb2
    rw [byte_range, Finset.mem_Ico, hoff] at hb hb2
    omega
  · intro i hi
    rw [hoff, buffer_size]
    rw [block_count, threads_per_block, img_width, img_height] at hi
    rw [img_width, img_height]
    omega
  · intro b hb
    rw [buffer_size, img_width, img_height] at hb
    refine ⟨b / 3, ⟨by rw [img_width, img_height]; omega, ?_⟩, ?_⟩
    · rw [byte_range, Finset.mem_Ico, hoff]
      omega
    · intro j hj
      rw [byte_range, Finset.mem_Ico, hoff] at hj
      omega

theorem dispatch_covers_witness :
    (5 : ℕ) ≠ 9 ∧ Disjoint (byte_range 5) (byte_range 9) :=
  ⟨by decide, dispatch_covers.2.1 5 9 (by decide)⟩

/-- The `for (double zoom = zoom_start; zoom <= zoom_end; zoom *= zoom_fact)`
loop of `main`, collecting the zoom value of each frame it produces; the
fuel only bounds the modelled trip count and any sufficiently large value
gives the full sequence. -/
def zoomFrames (zoomEnd fact : ℚ) : ℚ → ℕ → List ℚ
  | _, 0 => []
  | z, fuel + 1 =>
      if z ≤ zoomEnd then z :: zoomFrames zoomEnd fact (z * fact) fuel else []

/-- `int img_count = log(zoom_end / zoom_start) / log(zoom_fact)` of `main`:
the real-logarithm estimate, truncated to an integer by the `int`
declaration (the value is nonnegative for `zoom_end ≥ zoom_start`,
`zoom_fact > 1`, so truncation is the floor). -/
noncomputable def img_count_est (zoomStart zoomEnd zoomFact : ℝ) : ℤ :=
  ⌊Real.log (zoomEnd / zoomStart) / Real.log zoomFact⌋

/-- **C8.** The frame count is determined by the loop condition
`zoom ≤ zoom_end`,
not by the log-based estimate: for `zoom_start = 1`, `zoom_fact = 2`,
`zoom_end = 10` the loop yields the zoom sequence `1, 2, 4, 8` (4 frames,
since `16 > 10` stops it), while the estimate evaluates to `3`. -/
theorem frame_count_loop_driven :
    zoomFrames 10 2 1 10 = [1, 2, 4, 8] ∧
    (zoomFrames 10 2 1 10).length = 4 ∧
    img_count_est 1 10 2 = 3 := by
  have hseq : zoomFrames 10 2 1 10 = [1, 2, 4, 8] := by
    norm_num [zoomFrames]
  refine ⟨hseq, by rw [hseq]; rfl, ?_⟩
  rw [img_count_est]
  have hcast : Real.log ((10 : ℝ) / 1) / Real.log 2 =
      Real.logb ((2 : ℕ) : ℝ) ((10 : ℕ) : ℝ) := by
    rw [Real.logb]
    norm_num
  rw [hcast, Real.floor_logb_natCast (by positivity), Int.log_natCast]
  have hlog : Nat.log 2 10 = 3 :=
    Nat.log_eq_of_pow_le_of_lt_pow (by norm_num) (by norm_num)
  rw [hlog]
  norm_num

end Mandelbrot
